import Mathlib

/-
Verification of the geocoder hierarchy reader (geocoder/hierarchy_reader.cpp).

The development shallowly embeds the reader's data model and operations:
  * per-line parsing (HierarchyReader::ReadEntryMap, lines 72-119 of the source),
  * the k-way merge over ordered multimaps (HierarchyReader::UnionEntries,
    lines 43-70),
  * the orchestration and worker-count clamp (HierarchyReader::ReadEntries,
    lines 24-41).

Machine strings are lists of characters; 64-bit integers are Nat/Int with
explicit reduction modulo 2^64 where the source casts.  The concurrent worker
loop is embedded by making the scheduling explicit: a schedule assigns each
input line to the worker that popped it from the shared stream, and each
worker then processes its lines sequentially.  The shared stats object is
modelled race-free (each increment counted); a separate two-phase interleaving
model exhibits the source's unsynchronized increments.
-/

set_option maxHeartbeats 1000000

namespace HierarchyReader

/-- Discriminant of a hierarchy entry.  Modelled from the spec: the source's
geocoder type enumeration is not among the reviewed files; the spec treats it
as an opaque discriminant that includes a sentinel value (the source's
`Type::Count`) meaning "not a real record".  Constructors `A` and `B` stand
for the two concrete discriminants used in the spec's examples. -/
inductive EntryType where
  | A
  | B
  | Count
  deriving DecidableEq

/-- Hierarchy entry (source `Hierarchy::Entry`).  Modelled from the spec: the
entry structure itself is not among the reviewed files; the spec describes it
as an identifier, a discriminant, and otherwise opaque payload fields, with
the Identifier defining the merge key and equality. -/
structure Entry where
  m_osmId : Nat
  m_type : EntryType
  deriving DecidableEq

/-- Parsing statistics (source `ParsingStats`): the loaded-entry counter, the
bad-identifier counter, and the payload-failure counter the spec groups as
"other payload-failure counters". -/
structure ParsingStats where
  m_numLoaded : Nat
  m_badOsmIds : Nat
  m_badJsons : Nat
  deriving DecidableEq

instance : Zero ParsingStats :=
  ⟨⟨0, 0, 0⟩⟩

instance : Add ParsingStats :=
  ⟨fun a b => ⟨a.m_numLoaded + b.m_numLoaded, a.m_badOsmIds + b.m_badOsmIds,
    a.m_badJsons + b.m_badJsons⟩⟩

instance : AddCommMonoid ParsingStats where
  add_assoc a b c := by
    have h : ∀ x y : ParsingStats,
        x + y = ⟨x.m_numLoaded + y.m_numLoaded, x.m_badOsmIds + y.m_badOsmIds,
          x.m_badJsons + y.m_badJsons⟩ := fun x y => rfl
    rw [h, h, h, h]
    simp only [ParsingStats.mk.injEq]
    omega
  zero_add a := by
    have h : ∀ x y : ParsingStats,
        x + y = ⟨x.m_numLoaded + y.m_numLoaded, x.m_badOsmIds + y.m_badOsmIds,
          x.m_badJsons + y.m_badJsons⟩ := fun x y => rfl
    have hz : (0 : ParsingStats) = ⟨0, 0, 0⟩ := rfl
    cases a
    rw [hz, h]
    simp
  add_zero a := by
    have h : ∀ x y : ParsingStats,
        x + y = ⟨x.m_numLoaded + y.m_numLoaded, x.m_badOsmIds + y.m_badOsmIds,
          x.m_badJsons + y.m_badJsons⟩ := fun x y => rfl
    have hz : (0 : ParsingStats) = ⟨0, 0, 0⟩ := rfl
    cases a
    rw [hz, h]
    simp
  add_comm a b := by
    have h : ∀ x y : ParsingStats,
        x + y = ⟨x.m_numLoaded + y.m_numLoaded, x.m_badOsmIds + y.m_badOsmIds,
          x.m_badJsons + y.m_badJsons⟩ := fun x y => rfl
    rw [h, h]
    simp only [ParsingStats.mk.injEq]
    omega
  nsmul := nsmulRec

/-- A worker's partition: the ordered multimap from identifiers to entries
(source `multimap<base::GeoObjectId, Entry>`), as its ordered list of
key-value pairs.  The 64-bit `GeoObjectId` key is a Nat. -/
abbrev Partition := List (Nat × Entry)

/-- Index of the first space of a line (source `line.find(' ')`, line 90);
`none` plays the role of `string::npos`. -/
def findSpace : List Char → Option Nat
  | [] => none
  | c :: cs => if c = ' ' then some 0 else Option.map (· + 1) (findSpace cs)

/-- Accumulator loop for decimal decoding: consumes decimal digits,
failing on any non-digit character. -/
def digitsValGo (acc : Nat) : List Char → Option Nat
  | [] => some acc
  | c :: cs => if c.isDigit then digitsValGo (10 * acc + (c.toNat - 48)) cs else none

/-- Value of a non-empty all-digit token. -/
def digitsVal : List Char → Option Nat
  | [] => none
  | c :: cs => digitsValGo 0 (c :: cs)

/-- Largest signed 64-bit value. -/
def int64Max : Int := 2 ^ 63 - 1

/-- Smallest signed 64-bit value. -/
def int64Min : Int := -(2 ^ 63)

/-- Modelled from the spec: `strings::to_any` with an `int64_t` target
(line 92 of the source) is not among the reviewed files; per the spec, the
identifier token must decode as a signed 64-bit integer, so the token is an
optional minus sign followed by decimal digits, and the value must lie within
the signed 64-bit range. -/
def toInt64 (s : List Char) : Option Int :=
  match s with
  | [] => none
  | c :: rest =>
      if c = '-' then
        Option.bind (digitsVal rest)
          (fun v => if (v : Int) ≤ 2 ^ 63 then some (-(v : Int)) else none)
      else
        Option.bind (digitsVal (c :: rest))
          (fun v => if (v : Int) ≤ int64Max then some ((v : Int)) else none)

/-- The source's `static_cast<uint64_t>(encodedId)` (line 102): the signed
value reduced modulo 2^64, i.e. the two's-complement bit pattern read as
unsigned. -/
def toUnsigned64 (n : Int) : Nat := (n % (2 ^ 64 : Int)).toNat

/-- Modelled from the spec: `Entry::DeserializeFromJSON` (line 105) is not
among the reviewed files; per the spec the payload token decodes into a
structured record that is opaque beyond its discriminant, or fails.  Only the
discriminant is retained.  The three recognized payloads are the ones
exercised by the spec's examples; anything else is a decoding failure. -/
def deserializeFromJSON (payload : List Char) : Option EntryType :=
  if payload = "\x7b\"type\":\"A\"\x7d".toList then some EntryType.A
  else if payload = "\x7b\"type\":\"B\"\x7d".toList then some EntryType.B
  else if payload = "\x7b\"type\":\"Count\"\x7d".toList then some EntryType.Count
  else none

/-- Processing of a line after its identifier has been decoded (source
lines 100-115): deserialize the payload (counting failures), drop sentinel
records, and otherwise count and produce the entry keyed by its identifier. -/
def afterId (osmId : Nat) (rest : List Char) (stats : ParsingStats) :
    ParsingStats × Option (Nat × Entry) :=
  match deserializeFromJSON rest with
  | none => ({ stats with m_badJsons := stats.m_badJsons + 1 }, none)
  | some t =>
      if t = EntryType.Count then (stats, none)
      else ({ stats with m_numLoaded := stats.m_numLoaded + 1 },
        some (osmId, ⟨osmId, t⟩))

/-- Processing of one input line (source lines 87-115): skip empty lines;
split at the first space; decode the identifier as signed 64-bit and
reinterpret it as unsigned (a missing separator or undecodable token counts a
bad identifier); then handle the payload. -/
def processLine (line : List Char) (stats : ParsingStats) :
    ParsingStats × Option (Nat × Entry) :=
  if line = [] then (stats, none)
  else
    match findSpace line with
    | none => ({ stats with m_badOsmIds := stats.m_badOsmIds + 1 }, none)
    | some i =>
        match toInt64 (line.take i) with
        | none => ({ stats with m_badOsmIds := stats.m_badOsmIds + 1 }, none)
        | some n => afterId (toUnsigned64 n) (line.drop (i + 1)) stats

/-- Stats increment contributed by one line. -/
def lineDelta (l : List Char) : ParsingStats := (processLine l 0).1

/-- Key-entry pair contributed by one line, if any. -/
def lineRes (l : List Char) : Option (Nat × Entry) := (processLine l 0).2

/-- Entry contributed by one line, as a multiset. -/
def lineMS (l : List Char) : Multiset Entry :=
  match lineRes l with
  | none => 0
  | some x => {x.2}

/-- All entries successfully parsed from the input lines, in input order. -/
def parsedEntries (lines : List (List Char)) : List Entry :=
  lines.filterMap (fun l => Option.map Prod.snd (lineRes l))

/-- Multiset of all entries successfully parsed from the input lines. -/
def parsedMS (lines : List (List Char)) : Multiset Entry :=
  (lines.map lineMS).sum

/-- Comparison of two key-value pairs, as used by the multimap's
lexicographic ordering: this is the standard pair comparison on
(key, entry).  Modelled from the spec for the entry component: the entry
comparison is not among the reviewed files, and per the spec the Identifier
defines an entry's merge key and equality, so entries compare by identifier. -/
def pairLt (a b : Nat × Entry) : Bool :=
  decide (a.1 < b.1) ||
    (!decide (b.1 < a.1) && decide (a.2.m_osmId < b.2.m_osmId))

/-- Lexicographic comparison of two partitions: the multimap `operator<`
used by `min_element` in the source (line 57), i.e.
`lexicographical_compare` over key-value pairs.  A strict prefix compares
less; an empty multimap is least. -/
def partLtB : Partition → Partition → Bool
  | _, [] => false
  | [], _ :: _ => true
  | a :: as, b :: bs => pairLt a b || (!pairLt b a && partLtB as bs)

/-- Selection loop of `min_element`: scan the remaining candidates, replacing
the current best index-value pair only on a strictly smaller candidate (so
the first minimum wins). -/
def minFrom (best : Nat × Partition) (j : Nat) : List Partition → Nat × Partition
  | [] => best
  | c :: cs => minFrom (if partLtB c best.2 then (j, c) else best) (j + 1) cs

/-- Index of the partition `min_element` selects (source line 57). -/
def minPartIdx : List Partition → Nat
  | [] => 0
  | p :: rest => (minFrom (0, p) 1 rest).1

/-- Outcome of one iteration of the merge loop. -/
inductive StepRes where
  | done
  | dropped (ps : List Partition)
  | taken (e : Entry) (ps : List Partition)
  deriving DecidableEq

/-- One iteration of the merge loop working on the partition at index `i`
(source lines 57-66): an empty minimum partition is erased; otherwise its
first entry is moved to the output and the partition is erased once empty. -/
def stepAt (ps : List Partition) (i : Nat) : StepRes :=
  match ps.getD i [] with
  | [] => StepRes.dropped (ps.eraseIdx i)
  | x :: qrest =>
      StepRes.taken x.2
        (if qrest.isEmpty then (ps.set i qrest).eraseIdx i else ps.set i qrest)

/-- One iteration of the merge loop of `UnionEntries` (source lines 55-67). -/
def unionStep : List Partition → StepRes
  | [] => StepRes.done
  | p :: rest => stepAt (p :: rest) (minPartIdx (p :: rest))

/-- The merge loop with explicit fuel; `none` means the fuel ran out before
the loop finished. -/
def unionLoopF : Nat → List Partition → Option (List Entry)
  | 0, ps =>
      match unionStep ps with
      | StepRes.done => some []
      | _ => none
  | fuel + 1, ps =>
      match unionStep ps with
      | StepRes.done => some []
      | StepRes.dropped ps' => unionLoopF fuel ps'
      | StepRes.taken e ps' => Option.map (fun out => e :: out) (unionLoopF fuel ps')

/-- Termination measure of the merge loop: total number of remaining entries
plus the number of remaining partitions. -/
def measureP (ps : List Partition) : Nat := (ps.map (fun p => p.length + 1)).sum

/-- The k-way merge `HierarchyReader::UnionEntries` (source lines 43-70). -/
def unionEntries (ps : List Partition) : List Entry :=
  (unionLoopF (measureP ps) ps).getD []

/-- Multiset of the entries of one partition. -/
def partMS (p : Partition) : Multiset Entry := (p.map Prod.snd : List Entry)

/-- Multiset of the entries of a sequence of partitions. -/
def partsMS (ps : List Partition) : Multiset Entry := (ps.map partMS).sum

/-- Insertion into the ordered multimap (source `emplace`, line 115):
the pair is placed at the upper bound of its key, i.e. after every pair with
key less than or equal to its own. -/
def mmInsert : Partition → Nat × Entry → Partition
  | [], x => [x]
  | y :: ys, x => if y.1 ≤ x.1 then y :: mmInsert ys x else x :: y :: ys

/-- One worker's loop, `HierarchyReader::ReadEntryMap` (source lines 72-119),
run on the lines this worker popped from the shared stream: each line is
parsed and each success inserted into the worker's private multimap.  Stat
increments are threaded sequentially, i.e. race-free. -/
def readEntryMap : List (List Char) → ParsingStats → Partition →
    Partition × ParsingStats
  | [], stats, acc => (acc, stats)
  | l :: ls, stats, acc =>
      match processLine l stats with
      | (stats', none) => readEntryMap ls stats' acc
      | (stats', some x) => readEntryMap ls stats' (mmInsert acc x)

/-- The lines a given worker pops from the shared stream, under a schedule
assigning each line position to a worker: the subsequence of lines whose
position is assigned to this worker. -/
def workerLines (lines : List (List Char)) (sched : List Nat) (w : Nat) :
    List (List Char) :=
  (lines.zip sched).filterMap (fun p => if p.2 = w then some p.1 else none)

/-- A schedule is valid for `k` workers and `n` lines when it assigns each of
the `n` line positions to one of the `k` workers. -/
def ValidSched (sched : List Nat) (k n : Nat) : Prop :=
  sched.length = n ∧ ∀ t ∈ sched, t < k

/-- Number of workers spawned for a requested count (source line 28,
`readersCount = min(readersCount, size_t(8))`, followed by one spawned
thread per resulting count). -/
def spawnedWorkers (readersCount : Nat) : Nat := min readersCount 8

/-- The orchestration `HierarchyReader::ReadEntries` (source lines 24-41),
made deterministic by the explicit schedule: clamp the worker count, run each
worker on the lines the schedule hands it, sum the stat increments, and merge
all partitions. -/
def readEntries (lines : List (List Char)) (readersCount : Nat)
    (sched : List Nat) : List Entry × ParsingStats :=
  let readers := spawnedWorkers readersCount
  let results := (List.range readers).map
    (fun w => readEntryMap (workerLines lines sched w) 0 [])
  (unionEntries (results.map Prod.fst), (results.map Prod.snd).sum)

/-- Keys of a partition are non-decreasing (the multimap ordering
invariant). -/
def sortedPart (p : Partition) : Prop :=
  List.Pairwise (fun a b : Nat × Entry => a.1 ≤ b.1) p

/-- Every entry of a partition is keyed by its own identifier, as produced by
the worker loop (source lines 102-115: the emplaced key is the entry's id). -/
def keyIdOk (p : Partition) : Prop :=
  ∀ x ∈ p, x.2.m_osmId = x.1

/-- State of the two-worker interleaving model of the source's unsynchronized
counter increments (`++stats.m_numLoaded`, line 111, executed outside the
mutex that only guards `getline`): each worker's increment is a read step
into a private register followed by a write-back of register plus one.
`pc0`/`pc1` are the workers' program counters. -/
structure RaceState where
  shared : Nat
  reg0 : Nat
  pc0 : Nat
  reg1 : Nat
  pc1 : Nat
  deriving DecidableEq

/-- One scheduler step: run the chosen worker's next instruction of its
two-step unsynchronized increment. -/
def raceStep (w : Bool) (s : RaceState) : RaceState :=
  if w then
    if s.pc1 = 0 then { s with reg1 := s.shared, pc1 := 1 }
    else if s.pc1 = 1 then { s with shared := s.reg1 + 1, pc1 := 2 }
    else s
  else
    if s.pc0 = 0 then { s with reg0 := s.shared, pc0 := 1 }
    else if s.pc0 = 1 then { s with shared := s.reg0 + 1, pc0 := 2 }
    else s

/-- Run of the interleaving model under a schedule of worker choices. -/
def runRace (sched : List Bool) (s : RaceState) : RaceState :=
  sched.foldl (fun st w => raceStep w st) s

/-- Initial state: counter zero, neither increment started. -/
def raceInit : RaceState := ⟨0, 0, 0, 0, 0⟩

/-- Both workers have completed their increment. -/
def raceComplete (s : RaceState) : Prop := s.pc0 = 2 ∧ s.pc1 = 2

/-- The comparison key sequence of a partition: for each pair, its multimap
key together with its entry's identifier (the data `pairLt` inspects). -/
def keyIds (p : Partition) : List (Nat × Nat) :=
  p.map (fun x => (x.1, x.2.m_osmId))

instance (p : Partition) : Decidable (sortedPart p) := by
  unfold sortedPart
  infer_instance

instance (p : Partition) : Decidable (keyIdOk p) := by
  unfold keyIdOk
  infer_instance

instance (s : RaceState) : Decidable (raceComplete s) := by
  unfold raceComplete
  infer_instance

instance (sched : List Nat) (k n : Nat) : Decidable (ValidSched sched k n) := by
  unfold ValidSched
  infer_instance

theorem stats_add_def (a b : ParsingStats) :
    a + b = ⟨a.m_numLoaded + b.m_numLoaded, a.m_badOsmIds + b.m_badOsmIds,
      a.m_badJsons + b.m_badJsons⟩ := rfl

theorem stats_zero_def : (0 : ParsingStats) = ⟨0, 0, 0⟩ := rfl

theorem findSpace_append (tok rest : List Char) (h : ' ' ∉ tok) :
    findSpace (tok ++ ' ' :: rest) = some tok.length := by
  induction tok with
  | nil => simp [findSpace]
  | cons c cs ih =>
      have hc : ¬ c = ' ' := fun hce => h (by simp [hce])
      have hcs : ' ' ∉ cs := fun hm => h (List.mem_cons_of_mem _ hm)
      simp [findSpace, hc, ih hcs]

theorem processLine_split_line (tok rest : List Char) (h : ' ' ∉ tok)
    (stats : ParsingStats) :
    processLine (tok ++ ' ' :: rest) stats =
      match toInt64 tok with
      | none => ({ stats with m_badOsmIds := stats.m_badOsmIds + 1 }, none)
      | some n => afterId (toUnsigned64 n) rest stats := by
  have hne : tok ++ ' ' :: rest ≠ [] := by cases tok <;> simp
  have htake : (tok ++ ' ' :: rest).take tok.length = tok := by
    simp [List.take_left]
  have hdrop : (tok ++ ' ' :: rest).drop (tok.length + 1) = rest := by
    have hsplit : tok ++ ' ' :: rest = (tok ++ [' ']) ++ rest := by simp
    have hl : tok.length + 1 = (tok ++ [' ']).length := by simp
    rw [hsplit, hl, List.drop_left]
  rw [processLine, if_neg hne, findSpace_append tok rest h]
  dsimp only
  rw [htake, hdrop]

theorem processLine_badTok (tok rest : List Char) (h : ' ' ∉ tok)
    (hbad : toInt64 tok = none) (stats : ParsingStats) :
    processLine (tok ++ ' ' :: rest) stats
      = ({ stats with m_badOsmIds := stats.m_badOsmIds + 1 }, none) := by
  rw [processLine_split_line tok rest h, hbad]

theorem processLine_goodTok (tok rest : List Char) (n : Int) (h : ' ' ∉ tok)
    (hn : toInt64 tok = some n) (stats : ParsingStats) :
    processLine (tok ++ ' ' :: rest) stats = afterId (toUnsigned64 n) rest stats := by
  rw [processLine_split_line tok rest h, hn]

theorem processLine_noSpace (line : List Char) (hne : line ≠ [])
    (h : findSpace line = none) (stats : ParsingStats) :
    processLine line stats
      = ({ stats with m_badOsmIds := stats.m_badOsmIds + 1 }, none) := by
  rw [processLine, if_neg hne, h]

theorem toInt64_range (s : List Char) (n : Int) (h : toInt64 s = some n) :
    int64Min ≤ n ∧ n ≤ int64Max := by
  have h63 : (2 : Int) ^ 63 = 9223372036854775808 := by norm_num
  have hmin : int64Min = -(2 ^ 63) := rfl
  have hmax : int64Max = 2 ^ 63 - 1 := rfl
  cases s with
  | nil => simp [toInt64] at h
  | cons c rest =>
      simp only [toInt64] at h
      by_cases hc : c = '-'
      · rw [if_pos hc] at h
        cases hv : digitsVal rest with
        | none => rw [hv] at h; exact absurd h (by simp)
        | some v =>
            rw [hv] at h
            have hb : Option.bind (some v)
                (fun v : Nat => if (v : Int) ≤ 2 ^ 63 then some (-(v : Int)) else none)
              = if (v : Int) ≤ 2 ^ 63 then some (-(v : Int)) else none := rfl
            rw [hb] at h
            by_cases hle : (v : Int) ≤ 2 ^ 63
            · rw [if_pos hle] at h
              have hn := Option.some.inj h
              have hv0 : (0 : Int) ≤ (v : Int) := Int.natCast_nonneg v
              rw [hmin, hmax, h63]
              rw [h63] at hle
              omega
            · rw [if_neg hle] at h
              exact absurd h (by simp)
      · rw [if_neg hc] at h
        cases hv : digitsVal (c :: rest) with
        | none => rw [hv] at h; exact absurd h (by simp)
        | some v =>
            rw [hv] at h
            have hb : Option.bind (some v)
                (fun v : Nat => if (v : Int) ≤ int64Max then some ((v : Int)) else none)
              = if (v : Int) ≤ int64Max then some ((v : Int)) else none := rfl
            rw [hb] at h
            by_cases hle : (v : Int) ≤ int64Max
            · rw [if_pos hle] at h
              have hn := Option.some.inj h
              have hv0 : (0 : Int) ≤ (v : Int) := Int.natCast_nonneg v
              rw [hmax, h63] at hle
              rw [hmin, hmax, h63]
              omega
            · rw [if_neg hle] at h
              exact absurd h (by simp)

theorem toUnsigned64_spec (n : Int) (h1 : int64Min ≤ n) (h2 : n ≤ int64Max) :
    toUnsigned64 n < 2 ^ 64 ∧ ((toUnsigned64 n : Int)) % 2 ^ 64 = n % 2 ^ 64 ∧
    (0 ≤ n → (toUnsigned64 n : Int) = n) ∧
    (n < 0 → (toUnsigned64 n : Int) = n + 2 ^ 64) := by
  have h64 : (2 : Int) ^ 64 = 18446744073709551616 := by norm_num
  have h64n : (2 : Nat) ^ 64 = 18446744073709551616 := by norm_num
  have h63 : (2 : Int) ^ 63 = 9223372036854775808 := by norm_num
  have hmin : int64Min = -(2 ^ 63) := rfl
  have hmax : int64Max = 2 ^ 63 - 1 := rfl
  rw [hmin, h63] at h1
  rw [hmax, h63] at h2
  have htu : toUnsigned64 n = (n % (2 ^ 64 : Int)).toNat := rfl
  rw [htu, h64, h64n]
  omega

/-- C3 counterexample: the source only caps the worker count above by 8
(line 28); a request for 0 workers spawns 0 workers, not 1 as claimed. -/
theorem spawnedWorkers_zero_cex : spawnedWorkers 0 = 0 ∧ spawnedWorkers 0 ≠ 1 := by
  decide

/-- C3 (amended): `ReadEntries` clamps the requested worker count only from
above: it spawns `min(requested, 8)` workers, so requesting 20 spawns exactly
8 workers, but requesting 0 spawns 0 workers (there is no lower clamp to 1). -/
theorem spawnedWorkers_clamp :
    spawnedWorkers 20 = 8 ∧ spawnedWorkers 0 = 0 ∧
    ∀ rc, spawnedWorkers rc ≤ 8 ∧ spawnedWorkers rc ≤ rc ∧
      (spawnedWorkers rc = 8 ∨ spawnedWorkers rc = rc) := by
  refine ⟨rfl, rfl, fun rc => ?_⟩
  unfold spawnedWorkers
  omega

/-- C4: the identifier token (before the first space) is decoded as a signed
64-bit integer and reinterpreted bit-for-bit as an unsigned 64-bit value; the
parse is classified as a bad identifier exactly when the signed decoding
fails, and tokens that decode to a negative value (rejected by an unsigned
decoder) are accepted, with the two's-complement bit pattern preserved. -/
theorem identifier_decoding (tok rest : List Char) (stats : ParsingStats)
    (hsp : ' ' ∉ tok) :
    (toInt64 tok = none →
      processLine (tok ++ ' ' :: rest) stats
        = ({ stats with m_badOsmIds := stats.m_badOsmIds + 1 }, none)) ∧
    (∀ n : Int, toInt64 tok = some n →
      processLine (tok ++ ' ' :: rest) stats
        = afterId (toUnsigned64 n) rest stats) ∧
    (∀ n : Int, toInt64 tok = some n →
      int64Min ≤ n ∧ n ≤ int64Max ∧
      toUnsigned64 n < 2 ^ 64 ∧ ((toUnsigned64 n : Int)) % 2 ^ 64 = n % 2 ^ 64 ∧
      (0 ≤ n → (toUnsigned64 n : Int) = n) ∧
      (n < 0 → (toUnsigned64 n : Int) = n + 2 ^ 64)) := by
  refine ⟨fun hbad => processLine_badTok tok rest hsp hbad stats,
    fun n hn => processLine_goodTok tok rest n hsp hn stats,
    fun n hn => ?_⟩
  obtain ⟨hlo, hhi⟩ := toInt64_range tok n hn
  obtain ⟨ha, hb, hc, hd⟩ := toUnsigned64_spec n hlo hhi
  exact ⟨hlo, hhi, ha, hb, hc, hd⟩

/-- C4 witness: the token of the line is the negative number -1; it is
accepted, and its identifier is the two's-complement pattern 2^64 - 1. -/
theorem identifier_decoding_witness :
    (' ' ∉ "-1".toList) ∧
    processLine ("-1".toList ++ ' ' :: "\x7b\"type\":\"A\"\x7d".toList) 0
      = afterId (toUnsigned64 (-1)) "\x7b\"type\":\"A\"\x7d".toList 0 ∧
    toUnsigned64 (-1) = 18446744073709551615 :=
  ⟨by decide,
    (identifier_decoding "-1".toList "\x7b\"type\":\"A\"\x7d".toList 0
      (by decide)).2.1 (-1) (by rfl),
    by rfl⟩

/-- C7: a line with no space, or whose identifier token does not decode as a
signed 64-bit integer, increments the bad-identifier counter by exactly one
and contributes no entry; in particular so does the line
"notanumber followed by a space and two braces". -/
theorem bad_id_handling (stats : ParsingStats) :
    (∀ line : List Char, line ≠ [] → findSpace line = none →
      processLine line stats
        = ({ stats with m_badOsmIds := stats.m_badOsmIds + 1 }, none)) ∧
    (∀ tok rest : List Char, ' ' ∉ tok → toInt64 tok = none →
      processLine (tok ++ ' ' :: rest) stats
        = ({ stats with m_badOsmIds := stats.m_badOsmIds + 1 }, none)) ∧
    processLine "notanumber \x7b\x7d".toList stats
      = ({ stats with m_badOsmIds := stats.m_badOsmIds + 1 }, none) := by
  refine ⟨fun line hne h => processLine_noSpace line hne h stats,
    fun tok rest hsp hbad => processLine_badTok tok rest hsp hbad stats, ?_⟩
  have hsplit : "notanumber \x7b\x7d".toList
      = "notanumber".toList ++ ' ' :: "\x7b\x7d".toList := by decide
  rw [hsplit]
  exact processLine_badTok _ _ (by decide) (by rfl) stats

/-- C7 witness: the concrete bad line at zeroed statistics. -/
theorem bad_id_handling_witness :
    processLine "notanumber \x7b\x7d".toList 0
      = (⟨0, 1, 0⟩, none) :=
  (bad_id_handling 0).2.2

/-- C6: the source increments the shared counters outside the mutex
(lines 95 and 111 are not under the lock that only guards `getline`), so the
increment is a non-atomic read-modify-write; under the interleaving in which
both workers read before either writes, one of the two increments is lost
and the final counter is 1 instead of 2.  This refutes the claim that every
increment is reflected in the final total. -/
theorem lost_update_cex :
    raceComplete (runRace [false, true, false, true] raceInit) ∧
    (runRace [false, true, false, true] raceInit).shared = 1 ∧
    (runRace [false, true, false, true] raceInit).shared ≠ 2 := by
  refine ⟨⟨rfl, rfl⟩, rfl, by decide⟩

theorem bool_ff {b : Bool} (h : ¬ b = true) : b = false := by
  cases b
  · rfl
  · exact absurd rfl h

theorem sum_map_zero {M α : Type} [AddCommMonoid M] (l : List α) :
    (l.map (fun _ => (0 : M))).sum = 0 := by
  induction l with
  | nil => rfl
  | cons a l ih => simp [ih]

theorem map_congr_mem {α β : Type} (l : List α) (f g : α → β)
    (h : ∀ a ∈ l, f a = g a) : l.map f = l.map g := by
  induction l with
  | nil => rfl
  | cons a l ih =>
      simp only [List.map_cons]
      rw [h a (by simp), ih (fun b hb => h b (by simp [hb]))]

theorem sum_map_eraseIdx {M α : Type} [AddCommMonoid M] (f : α → M) (d : α) :
    ∀ (ps : List α) (i : Nat), i < ps.length →
      (ps.map f).sum = f (ps.getD i d) + ((ps.eraseIdx i).map f).sum := by
  intro ps
  induction ps with
  | nil => intro i hi; simp at hi
  | cons p ps ih =>
      intro i hi
      cases i with
      | zero => simp
      | succ j =>
          have hj : j < ps.length := by simpa using hi
          simp only [List.map_cons, List.sum_cons, List.eraseIdx_cons_succ,
            List.getD_cons_succ]
          rw [ih j hj, add_left_comm]

theorem getD_set_self {α : Type} (d : α) :
    ∀ (ps : List α) (i : Nat) (v : α), i < ps.length → (ps.set i v).getD i d = v := by
  intro ps
  induction ps with
  | nil => intro i v hi; simp at hi
  | cons p ps ih =>
      intro i v hi
      cases i with
      | zero => rfl
      | succ j => exact ih j v (by simpa using hi)

theorem eraseIdx_set {α : Type} :
    ∀ (ps : List α) (i : Nat) (v : α), (ps.set i v).eraseIdx i = ps.eraseIdx i := by
  intro ps
  induction ps with
  | nil => intro i v; rfl
  | cons p ps ih =>
      intro i v
      cases i with
      | zero => rfl
      | succ j => simp only [List.set_cons_succ, List.eraseIdx_cons_succ, ih]

theorem length_set_eq {α : Type} :
    ∀ (ps : List α) (i : Nat) (v : α), (ps.set i v).length = ps.length := by
  intro ps i v
  simp

theorem getD_mem {α : Type} (d : α) :
    ∀ (ps : List α) (i : Nat), i < ps.length → ps.getD i d ∈ ps := by
  intro ps
  induction ps with
  | nil => intro i hi; simp at hi
  | cons p ps ih =>
      intro i hi
      cases i with
      | zero => simp
      | succ j => exact List.mem_cons_of_mem _ (ih j (by simpa using hi))

theorem mem_eraseIdx {α : Type} {a : α} :
    ∀ {ps : List α} {i : Nat}, a ∈ ps.eraseIdx i → a ∈ ps := by
  intro ps
  induction ps with
  | nil => intro i h; simp [List.eraseIdx] at h
  | cons p ps ih =>
      intro i h
      cases i with
      | zero => exact List.mem_cons_of_mem _ h
      | succ j =>
          rcases List.mem_cons.mp h with rfl | h'
          · exact List.mem_cons_self _ _
          · exact List.mem_cons_of_mem _ (ih h')

theorem mem_set {α : Type} {a : α} :
    ∀ {ps : List α} {i : Nat} {v : α}, a ∈ ps.set i v → a ∈ ps ∨ a = v := by
  intro ps
  induction ps with
  | nil => intro i v h; simp at h
  | cons p ps ih =>
      intro i v h
      cases i with
      | zero =>
          rcases List.mem_cons.mp h with rfl | h'
          · exact Or.inr rfl
          · exact Or.inl (List.mem_cons_of_mem _ h')
      | succ j =>
          rcases List.mem_cons.mp h with rfl | h'
          · exact Or.inl (List.mem_cons_self _ _)
          · rcases ih h' with h'' | h''
            · exact Or.inl (List.mem_cons_of_mem _ h'')
            · exact Or.inr h''

theorem drop_cons_facts {α : Type} (d : α) :
    ∀ (ps : List α) (j : Nat) (c : α) (cs : List α), ps.drop j = c :: cs →
      ps.getD j d = c ∧ ps.drop (j + 1) = cs ∧ j < ps.length := by
  intro ps
  induction ps with
  | nil => intro j c cs h; simp at h
  | cons p ps ih =>
      intro j c cs h
      cases j with
      | zero =>
          simp only [List.drop_zero] at h
          cases h
          exact ⟨rfl, by simp, by simp⟩
      | succ j =>
          simp only [List.drop_succ_cons] at h
          obtain ⟨h1, h2, h3⟩ := ih j c cs h
          exact ⟨h1, h2, by simpa using Nat.succ_lt_succ h3⟩

theorem pairLt_irrefl (a : Nat × Entry) : pairLt a a = false := by
  simp [pairLt]

theorem pairLt_iff (a b : Nat × Entry) : pairLt a b = true ↔
    (a.1 < b.1 ∨ (¬ b.1 < a.1 ∧ a.2.m_osmId < b.2.m_osmId)) := by
  simp [pairLt]

theorem pairLt_false_iff (a b : Nat × Entry) : pairLt a b = false ↔
    ¬ (a.1 < b.1 ∨ (¬ b.1 < a.1 ∧ a.2.m_osmId < b.2.m_osmId)) := by
  rw [← pairLt_iff]
  cases h : pairLt a b <;> simp

theorem pairLt_trans {a b c : Nat × Entry} (h1 : pairLt a b = true)
    (h2 : pairLt b c = true) : pairLt a c = true := by
  rw [pairLt_iff] at h1 h2 ⊢
  omega

theorem pairLt_ff_ff {a b : Nat × Entry} (h1 : pairLt a b = false)
    (h2 : pairLt b a = false) : a.1 = b.1 ∧ a.2.m_osmId = b.2.m_osmId := by
  rw [pairLt_false_iff] at h1 h2
  omega

theorem pairLt_congr_left {a b : Nat × Entry} (h1 : a.1 = b.1)
    (h2 : a.2.m_osmId = b.2.m_osmId) (c : Nat × Entry) : pairLt a c = pairLt b c := by
  simp [pairLt, h1, h2]

theorem pairLt_congr_right {a b : Nat × Entry} (h1 : a.1 = b.1)
    (h2 : a.2.m_osmId = b.2.m_osmId) (c : Nat × Entry) : pairLt c a = pairLt c b := by
  simp [pairLt, h1, h2]

theorem partLtB_nil_right (p : Partition) : partLtB p [] = false := by
  cases p <;> rfl

theorem partLtB_irrefl (p : Partition) : partLtB p p = false := by
  induction p with
  | nil => rfl
  | cons a as ih => simp [partLtB, pairLt_irrefl, ih]

theorem partLtB_ff_ff : ∀ (a b : Partition), partLtB a b = false →
    partLtB b a = false → keyIds a = keyIds b := by
  intro a
  induction a with
  | nil =>
      intro b h1 _
      cases b with
      | nil => rfl
      | cons y ys => simp [partLtB] at h1
  | cons x xs ih =>
      intro b h1 h2
      cases b with
      | nil => simp [partLtB] at h2
      | cons y ys =>
          simp only [partLtB] at h1 h2
          have e1 : pairLt x y = false := by
            cases hp : pairLt x y
            · rfl
            · rw [hp] at h1; simp at h1
          have e2 : pairLt y x = false := by
            cases hp : pairLt y x
            · rfl
            · rw [hp] at h2; simp at h2
          rw [e1, e2] at h1 h2
          simp only [Bool.false_or, Bool.not_false, Bool.true_and] at h1 h2
          obtain ⟨hk, hi⟩ := pairLt_ff_ff e1 e2
          have htl := ih ys h1 h2
          simp only [keyIds, List.map_cons] at htl ⊢
          rw [hk, hi, htl]

theorem partLtB_congr_left : ∀ (a b : Partition), keyIds a = keyIds b →
    ∀ c, partLtB a c = partLtB b c := by
  intro a
  induction a with
  | nil =>
      intro b hk c
      cases b with
      | nil => rfl
      | cons y ys => simp [keyIds] at hk
  | cons x xs ih =>
      intro b hk c
      cases b with
      | nil => simp [keyIds] at hk
      | cons y ys =>
          simp only [keyIds, List.map_cons, List.cons.injEq, Prod.mk.injEq] at hk
          obtain ⟨⟨hk1, hk2⟩, htl⟩ := hk
          cases c with
          | nil => rw [partLtB_nil_right, partLtB_nil_right]
          | cons z zs =>
              simp only [partLtB]
              rw [pairLt_congr_left hk1 hk2 z, pairLt_congr_right hk1 hk2 z,
                ih ys htl zs]

theorem partLtB_congr_right : ∀ (a b : Partition), keyIds a = keyIds b →
    ∀ c, partLtB c a = partLtB c b := by
  intro a
  induction a with
  | nil =>
      intro b hk c
      cases b with
      | nil => rfl
      | cons y ys => simp [keyIds] at hk
  | cons x xs ih =>
      intro b hk c
      cases b with
      | nil => simp [keyIds] at hk
      | cons y ys =>
          simp only [keyIds, List.map_cons, List.cons.injEq, Prod.mk.injEq] at hk
          obtain ⟨⟨hk1, hk2⟩, htl⟩ := hk
          cases c with
          | nil => rfl
          | cons z zs =>
              simp only [partLtB]
              rw [pairLt_congr_right hk1 hk2 z, pairLt_congr_left hk1 hk2 z,
                ih ys htl zs]

theorem partLtB_trans : ∀ (a b c : Partition), partLtB a b = true →
    partLtB b c = true → partLtB a c = true := by
  intro a
  induction a with
  | nil =>
      intro b c h1 h2
      cases b with
      | nil => simp [partLtB] at h1
      | cons y ys =>
          cases c with
          | nil => rw [partLtB_nil_right] at h2; exact absurd h2 (by simp)
          | cons z zs => rfl
  | cons x xs ih =>
      intro b c h1 h2
      cases b with
      | nil => simp [partLtB] at h1
      | cons y ys =>
          cases c with
          | nil => rw [partLtB_nil_right] at h2; exact absurd h2 (by simp)
          | cons z zs =>
              simp only [partLtB, Bool.or_eq_true, Bool.and_eq_true,
                Bool.not_eq_true'] at h1 h2 ⊢
              by_cases hxy : pairLt x y = true
              · by_cases hyz : pairLt y z = true
                · exact Or.inl (pairLt_trans hxy hyz)
                · have hyzf := bool_ff hyz
                  rcases h2 with h2 | ⟨h2a, h2b⟩
                  · exact absurd h2 hyz
                  · obtain ⟨hk, hi⟩ := pairLt_ff_ff hyzf h2a
                    rw [pairLt_congr_right hk hi x] at hxy
                    exact Or.inl hxy
              · have hxyf := bool_ff hxy
                rcases h1 with h1 | ⟨h1a, h1b⟩
                · exact absurd h1 hxy
                · obtain ⟨hk, hi⟩ := pairLt_ff_ff hxyf h1a
                  by_cases hyz : pairLt y z = true
                  · rw [← pairLt_congr_left hk hi z] at hyz
                    exact Or.inl hyz
                  · have hyzf := bool_ff hyz
                    rcases h2 with h2 | ⟨h2a, h2b⟩
                    · exact absurd h2 hyz
                    · refine Or.inr ⟨?_, ih ys zs h1b h2b⟩
                      rw [pairLt_congr_right hk hi z]
                      exact h2a

theorem minFrom_min : ∀ (cs : List Partition) (best : Nat × Partition) (j : Nat),
    partLtB best.2 (minFrom best j cs).2 = false ∧
    ∀ c ∈ cs, partLtB c (minFrom best j cs).2 = false := by
  intro cs
  induction cs with
  | nil =>
      intro best j
      exact ⟨partLtB_irrefl _, by simp⟩
  | cons c cs ih =>
      intro best j
      simp only [minFrom]
      by_cases hc : partLtB c best.2 = true
      · rw [if_pos hc]
        obtain ⟨h1, h2⟩ := ih (j, c) (j + 1)
        refine ⟨?_, ?_⟩
        · cases hb : partLtB best.2 (minFrom (j, c) (j + 1) cs).2
          · rfl
          · have ht := partLtB_trans _ _ _ hc hb
            rw [h1] at ht
            exact absurd ht (by decide)
        · intro d hd
          rcases List.mem_cons.mp hd with rfl | hd'
          · exact h1
          · exact h2 d hd'
      · rw [if_neg hc]
        obtain ⟨h1, h2⟩ := ih best (j + 1)
        refine ⟨h1, ?_⟩
        intro d hd
        rcases List.mem_cons.mp hd with rfl | hd'
        · cases hcr : partLtB d (minFrom best (j + 1) cs).2
          · rfl
          · by_cases hrb : partLtB (minFrom best (j + 1) cs).2 best.2 = true
            · have ht := partLtB_trans _ _ _ hcr hrb
              exact absurd ht hc
            · have hrbf := bool_ff hrb
              have hkeq := partLtB_ff_ff _ _ h1 hrbf
              rw [← partLtB_congr_right _ _ hkeq d] at hcr
              exact absurd hcr hc
        · exact h2 d hd'

theorem minFrom_at (ps : List Partition) : ∀ (cs : List Partition)
    (best : Nat × Partition) (j : Nat), cs = ps.drop j → best.1 < ps.length →
    ps.getD best.1 [] = best.2 →
    (minFrom best j cs).1 < ps.length ∧
    ps.getD (minFrom best j cs).1 [] = (minFrom best j cs).2 := by
  intro cs
  induction cs with
  | nil =>
      intro best j _ h1 h2
      exact ⟨h1, h2⟩
  | cons c cs ih =>
      intro best j hdrop h1 h2
      obtain ⟨hg, hd, hj⟩ := drop_cons_facts [] ps j c cs hdrop.symm
      simp only [minFrom]
      by_cases hc : partLtB c best.2 = true
      · rw [if_pos hc]
        exact ih (j, c) (j + 1) hd.symm hj hg
      · rw [if_neg hc]
        exact ih best (j + 1) hd.symm h1 h2

theorem minPartIdx_facts (p : Partition) (rest : List Partition) :
    minPartIdx (p :: rest) < (p :: rest).length ∧
    ∀ q ∈ p :: rest,
      partLtB q ((p :: rest).getD (minPartIdx (p :: rest)) []) = false := by
  have hat := minFrom_at (p :: rest) rest (0, p) 1 rfl (by simp) rfl
  have hmin := minFrom_min rest (0, p) 1
  refine ⟨hat.1, ?_⟩
  intro q hq
  rw [show minPartIdx (p :: rest) = (minFrom (0, p) 1 rest).1 from rfl, hat.2]
  rcases List.mem_cons.mp hq with rfl | hq'
  · exact hmin.1
  · exact hmin.2 q hq'

theorem partMS_cons (x : Nat × Entry) (p : Partition) :
    partMS (x :: p) = x.2 ::ₘ partMS p := rfl

theorem partsMS_cons (p : Partition) (ps : List Partition) :
    partsMS (p :: ps) = partMS p + partsMS ps := by
  simp [partsMS]

theorem partsMS_eraseIdx (ps : List Partition) (i : Nat) (hi : i < ps.length) :
    partsMS ps = partMS (ps.getD i []) + partsMS (ps.eraseIdx i) :=
  sum_map_eraseIdx partMS [] ps i hi

theorem measureP_eraseIdx (ps : List Partition) (i : Nat) (hi : i < ps.length) :
    measureP ps = ((ps.getD i []).length + 1) + measureP (ps.eraseIdx i) :=
  sum_map_eraseIdx (fun p : Partition => p.length + 1) [] ps i hi

theorem partsMS_set (ps : List Partition) (i : Nat) (v : Partition)
    (hi : i < ps.length) :
    partsMS (ps.set i v) = partMS v + partsMS (ps.eraseIdx i) := by
  have h := sum_map_eraseIdx partMS [] (ps.set i v) i
    (by rw [length_set_eq]; exact hi)
  rw [getD_set_self [] ps i v hi, eraseIdx_set] at h
  exact h

theorem measureP_set (ps : List Partition) (i : Nat) (v : Partition)
    (hi : i < ps.length) :
    measureP (ps.set i v) = (v.length + 1) + measureP (ps.eraseIdx i) := by
  have h := sum_map_eraseIdx (fun p : Partition => p.length + 1) [] (ps.set i v) i
    (by rw [length_set_eq]; exact hi)
  rw [getD_set_self [] ps i v hi, eraseIdx_set] at h
  exact h

theorem stepAt_eq_dropped (ps : List Partition) (i : Nat) (hq : ps.getD i [] = []) :
    stepAt ps i = StepRes.dropped (ps.eraseIdx i) := by
  unfold stepAt
  rw [hq]

theorem stepAt_eq_taken (ps : List Partition) (i : Nat) (x : Nat × Entry)
    (qrest : Partition) (hq : ps.getD i [] = x :: qrest) :
    stepAt ps i = StepRes.taken x.2
      (if qrest.isEmpty then (ps.set i qrest).eraseIdx i else ps.set i qrest) := by
  unfold stepAt
  rw [hq]

theorem unionStep_done_iff (ps : List Partition) :
    unionStep ps = StepRes.done ↔ ps = [] := by
  cases ps with
  | nil => simp [unionStep]
  | cons p rest =>
      cases hq : (p :: rest).getD (minPartIdx (p :: rest)) [] with
      | nil =>
          rw [show unionStep (p :: rest)
              = stepAt (p :: rest) (minPartIdx (p :: rest)) from rfl,
            stepAt_eq_dropped _ _ hq]
          simp
      | cons x qrest =>
          rw [show unionStep (p :: rest)
              = stepAt (p :: rest) (minPartIdx (p :: rest)) from rfl,
            stepAt_eq_taken _ _ x qrest hq]
          simp

theorem unionStep_dropped_facts {ps ps' : List Partition}
    (h : unionStep ps = StepRes.dropped ps') :
    partsMS ps' = partsMS ps ∧ measureP ps' < measureP ps ∧ ∀ q ∈ ps', q ∈ ps := by
  cases ps with
  | nil => simp [unionStep] at h
  | cons p rest =>
      obtain ⟨hlt, _⟩ := minPartIdx_facts p rest
      rw [show unionStep (p :: rest)
          = stepAt (p :: rest) (minPartIdx (p :: rest)) from rfl] at h
      cases hq : (p :: rest).getD (minPartIdx (p :: rest)) [] with
      | nil =>
          rw [stepAt_eq_dropped _ _ hq] at h
          injection h with h
          subst h
          refine ⟨?_, ?_, fun q hq' => mem_eraseIdx hq'⟩
          · have hms := partsMS_eraseIdx (p :: rest) _ hlt
            rw [hq] at hms
            simpa [partMS] using hms.symm
          · have hm := measureP_eraseIdx (p :: rest) _ hlt
            rw [hq] at hm
            simp at hm
            omega
      | cons x qrest =>
          rw [stepAt_eq_taken _ _ x qrest hq] at h
          simp at h

theorem unionStep_taken_facts {ps : List Partition} {e : Entry}
    {ps' : List Partition} (h : unionStep ps = StepRes.taken e ps') :
    partsMS ps = e ::ₘ partsMS ps' ∧ measureP ps' < measureP ps := by
  cases ps with
  | nil => simp [unionStep] at h
  | cons p rest =>
      obtain ⟨hlt, _⟩ := minPartIdx_facts p rest
      rw [show unionStep (p :: rest)
          = stepAt (p :: rest) (minPartIdx (p :: rest)) from rfl] at h
      cases hq : (p :: rest).getD (minPartIdx (p :: rest)) [] with
      | nil =>
          rw [stepAt_eq_dropped _ _ hq] at h
          simp at h
      | cons x qrest =>
          rw [stepAt_eq_taken _ _ x qrest hq] at h
          injection h with he hps
          subst he
          cases hqe : qrest.isEmpty with
          | true =>
              have hqnil : qrest = [] := List.isEmpty_iff.mp hqe
              rw [hqe] at hps
              simp only [if_true] at hps
              rw [eraseIdx_set] at hps
              subst hps
              subst hqnil
              have hms := partsMS_eraseIdx (p :: rest) _ hlt
              rw [hq] at hms
              have hm := measureP_eraseIdx (p :: rest) _ hlt
              rw [hq] at hm
              refine ⟨?_, ?_⟩
              · rw [hms, partMS_cons]
                simp [partMS, Multiset.cons_add]
              · simp at hm
                omega
          | false =>
              rw [hqe] at hps
              simp only [if_false, Bool.false_eq_true] at hps
              subst hps
              have hms := partsMS_eraseIdx (p :: rest) _ hlt
              rw [hq] at hms
              have hm := measureP_eraseIdx (p :: rest) _ hlt
              rw [hq] at hm
              have hms' := partsMS_set (p :: rest) _ qrest hlt
              have hm' := measureP_set (p :: rest) _ qrest hlt
              refine ⟨?_, ?_⟩
              · rw [hms, hms', partMS_cons, Multiset.cons_add]
              · rw [hm']
                simp only [List.length_cons] at hm
                omega

theorem sortedPart_head_le {y : Nat × Entry} {ys : Partition}
    (h : sortedPart (y :: ys)) : ∀ x ∈ y :: ys, y.1 ≤ x.1 := by
  intro x hx
  rcases List.mem_cons.mp hx with rfl | hx'
  · exact le_refl _
  · exact (List.pairwise_cons.mp h).1 x hx'

theorem sortedPart_tail {y : Nat × Entry} {ys : Partition}
    (h : sortedPart (y :: ys)) : sortedPart ys :=
  (List.pairwise_cons.mp h).2

theorem partLtB_cons_false_head {y x : Nat × Entry} {ys qs : Partition}
    (h : partLtB (y :: ys) (x :: qs) = false) : pairLt y x = false := by
  cases hp : pairLt y x
  · rfl
  · simp [partLtB, hp] at h

theorem unionStep_taken_inv {ps : List Partition} {e : Entry}
    {ps' : List Partition} (h : unionStep ps = StepRes.taken e ps')
    (hs : ∀ p ∈ ps, sortedPart p) (hid : ∀ p ∈ ps, keyIdOk p) :
    (∀ p ∈ ps', sortedPart p) ∧ (∀ p ∈ ps', keyIdOk p) ∧
    ∀ p ∈ ps', ∀ x ∈ p, e.m_osmId ≤ x.1 := by
  cases ps with
  | nil => simp [unionStep] at h
  | cons p rest =>
      obtain ⟨hlt, hmin⟩ := minPartIdx_facts p rest
      rw [show unionStep (p :: rest)
          = stepAt (p :: rest) (minPartIdx (p :: rest)) from rfl] at h
      cases hq : (p :: rest).getD (minPartIdx (p :: rest)) [] with
      | nil =>
          rw [stepAt_eq_dropped _ _ hq] at h
          simp at h
      | cons x qrest =>
          rw [stepAt_eq_taken _ _ x qrest hq] at h
          injection h with he hps
          subst he
          have hchosen : x :: qrest ∈ p :: rest := by
            rw [← hq]
            exact getD_mem [] _ _ hlt
          have hcs : sortedPart (x :: qrest) := hs _ hchosen
          have hcid : keyIdOk (x :: qrest) := hid _ hchosen
          have hex : x.2.m_osmId = x.1 := hcid x (List.mem_cons_self _ _)
          have hmem : ∀ q ∈ ps', q ∈ p :: rest ∨ q = qrest := by
            intro q hq'
            rw [← hps] at hq'
            by_cases hqe : qrest.isEmpty
            · rw [if_pos hqe] at hq'
              rcases mem_set (mem_eraseIdx hq') with h' | h'
              · exact Or.inl h'
              · exact Or.inr h'
            · rw [if_neg hqe] at hq'
              rcases mem_set hq' with h' | h'
              · exact Or.inl h'
              · exact Or.inr h'
          have hqrest_s : sortedPart qrest := sortedPart_tail hcs
          have hqrest_id : keyIdOk qrest := fun z hz =>
            hcid z (List.mem_cons_of_mem _ hz)
          have hbound : ∀ q, q ∈ p :: rest ∨ q = qrest → ∀ z ∈ q, x.2.m_osmId ≤ z.1 := by
            intro q hcase z hz
            rw [hex]
            rcases hcase with hqin | rfl
            · have hlt' := hmin q hqin
              rw [hq] at hlt'
              cases q with
              | nil => simp at hz
              | cons y ys =>
                  have hyx : pairLt y x = false := partLtB_cons_false_head hlt'
                  have hxy : x.1 ≤ y.1 := by
                    rw [pairLt_false_iff] at hyx
                    omega
                  have hyz := sortedPart_head_le (hs _ hqin) z hz
                  omega
            · have := sortedPart_head_le hcs z (List.mem_cons_of_mem _ hz)
              exact this
          refine ⟨?_, ?_, ?_⟩
          · intro q hq'
            rcases hmem q hq' with h' | rfl
            · exact hs q h'
            · exact hqrest_s
          · intro q hq'
            rcases hmem q hq' with h' | rfl
            · exact hid q h'
            · exact hqrest_id
          · intro q hq' z hz
            exact hbound q (hmem q hq') z hz

theorem unionLoopF_total : ∀ (fuel : Nat) (ps : List Partition),
    measureP ps ≤ fuel → ∃ out, unionLoopF fuel ps = some out := by
  intro fuel
  induction fuel with
  | zero =>
      intro ps hm
      cases ps with
      | nil => exact ⟨[], rfl⟩
      | cons p rest =>
          exfalso
          have h1 : measureP (p :: rest) = p.length + 1 + measureP rest := by
            simp [measureP]
          omega
  | succ n ih =>
      intro ps hm
      cases hstep : unionStep ps with
      | done => exact ⟨[], by simp [unionLoopF, hstep]⟩
      | dropped ps' =>
          obtain ⟨_, hlt, _⟩ := unionStep_dropped_facts hstep
          obtain ⟨out, hout⟩ := ih ps' (by omega)
          exact ⟨out, by simp [unionLoopF, hstep, hout]⟩
      | taken e ps' =>
          obtain ⟨_, hlt⟩ := unionStep_taken_facts hstep
          obtain ⟨out, hout⟩ := ih ps' (by omega)
          exact ⟨e :: out, by simp [unionLoopF, hstep, hout]⟩

theorem unionLoopF_ms : ∀ (fuel : Nat) (ps : List Partition) (out : List Entry),
    unionLoopF fuel ps = some out → (out : Multiset Entry) = partsMS ps := by
  intro fuel
  induction fuel with
  | zero =>
      intro ps out h
      cases hstep : unionStep ps with
      | done =>
          have hnil := (unionStep_done_iff ps).mp hstep
          subst hnil
          simp [unionLoopF, unionStep] at h
          subst h
          simp [partsMS]
      | dropped ps' => simp [unionLoopF, hstep] at h
      | taken e ps' => simp [unionLoopF, hstep] at h
  | succ n ih =>
      intro ps out h
      cases hstep : unionStep ps with
      | done =>
          have hnil := (unionStep_done_iff ps).mp hstep
          subst hnil
          simp [unionLoopF, unionStep] at h
          subst h
          simp [partsMS]
      | dropped ps' =>
          simp only [unionLoopF, hstep] at h
          rw [ih ps' out h, (unionStep_dropped_facts hstep).1]
      | taken e ps' =>
          simp only [unionLoopF, hstep] at h
          cases ho : unionLoopF n ps' with
          | none => rw [ho] at h; simp at h
          | some out' =>
              rw [ho] at h
              simp at h
              subst h
              rw [(unionStep_taken_facts hstep).1, ← ih ps' out' ho]
              rfl

theorem mem_partMS {a : Entry} {p : Partition} :
    a ∈ partMS p ↔ ∃ x ∈ p, x.2 = a := by
  simp [partMS]

theorem mem_partsMS {a : Entry} : ∀ {ps : List Partition},
    a ∈ partsMS ps ↔ ∃ p ∈ ps, ∃ x ∈ p, x.2 = a := by
  intro ps
  induction ps with
  | nil => simp [partsMS]
  | cons p ps ih =>
      rw [partsMS_cons, Multiset.mem_add]
      constructor
      · rintro (h | h)
        · exact ⟨p, List.mem_cons_self _ _, mem_partMS.mp h⟩
        · obtain ⟨q, hq, hx⟩ := ih.mp h
          exact ⟨q, List.mem_cons_of_mem _ hq, hx⟩
      · rintro ⟨q, hq, hx⟩
        rcases List.mem_cons.mp hq with rfl | hq'
        · exact Or.inl (mem_partMS.mpr hx)
        · exact Or.inr (ih.mpr ⟨q, hq', hx⟩)

theorem unionLoopF_pairwise : ∀ (fuel : Nat) (ps : List Partition)
    (out : List Entry), unionLoopF fuel ps = some out →
    (∀ p ∈ ps, sortedPart p) → (∀ p ∈ ps, keyIdOk p) →
    out.Pairwise (fun a b : Entry => a.m_osmId ≤ b.m_osmId) := by
  intro fuel
  induction fuel with
  | zero =>
      intro ps out h _ _
      cases hstep : unionStep ps with
      | done =>
          have hnil := (unionStep_done_iff ps).mp hstep
          subst hnil
          simp [unionLoopF, unionStep] at h
          subst h
          exact List.Pairwise.nil
      | dropped ps' => simp [unionLoopF, hstep] at h
      | taken e ps' => simp [unionLoopF, hstep] at h
  | succ n ih =>
      intro ps out h hs hid
      cases hstep : unionStep ps with
      | done =>
          have hnil := (unionStep_done_iff ps).mp hstep
          subst hnil
          simp [unionLoopF, unionStep] at h
          subst h
          exact List.Pairwise.nil
      | dropped ps' =>
          simp only [unionLoopF, hstep] at h
          obtain ⟨_, _, hsub⟩ := unionStep_dropped_facts hstep
          exact ih ps' out h (fun p hp => hs p (hsub p hp))
            (fun p hp => hid p (hsub p hp))
      | taken e ps' =>
          simp only [unionLoopF, hstep] at h
          cases ho : unionLoopF n ps' with
          | none => rw [ho] at h; simp at h
          | some out' =>
              rw [ho] at h
              simp at h
              subst h
              obtain ⟨hs', hid', hbound⟩ := unionStep_taken_inv hstep hs hid
              refine List.pairwise_cons.mpr ⟨?_, ih ps' out' ho hs' hid'⟩
              intro b hb
              have hbms : b ∈ partsMS ps' := by
                rw [← unionLoopF_ms n ps' out' ho]
                exact Multiset.mem_coe.mpr hb
              obtain ⟨p, hp, z, hz, rfl⟩ := mem_partsMS.mp hbms
              have h1 := hbound p hp z hz
              have h2 := hid' p hp z hz
              omega

theorem unionEntries_eq (ps : List Partition) :
    ∃ out, unionLoopF (measureP ps) ps = some out ∧ unionEntries ps = out := by
  obtain ⟨out, h⟩ := unionLoopF_total (measureP ps) ps (le_refl _)
  exact ⟨out, h, by rw [unionEntries, h]; rfl⟩

theorem unionEntries_ms (ps : List Partition) :
    (unionEntries ps : Multiset Entry) = partsMS ps := by
  obtain ⟨out, h, he⟩ := unionEntries_eq ps
  rw [he]
  exact unionLoopF_ms _ _ _ h

theorem unionEntries_pairwise (ps : List Partition) (hs : ∀ p ∈ ps, sortedPart p)
    (hid : ∀ p ∈ ps, keyIdOk p) :
    (unionEntries ps).Pairwise (fun a b : Entry => a.m_osmId ≤ b.m_osmId) := by
  obtain ⟨out, h, he⟩ := unionEntries_eq ps
  rw [he]
  exact unionLoopF_pairwise _ _ _ h hs hid

theorem card_partsMS (ps : List Partition) :
    Multiset.card (partsMS ps) = (ps.map List.length).sum := by
  induction ps with
  | nil => rfl
  | cons p ps ih =>
      rw [partsMS_cons, Multiset.card_add, ih]
      simp [partMS]

/-- C2: the merge loses and duplicates nothing: for every sequence of
partitions, the multiset of output entries equals the multiset union of all
partition entries (every entry appears exactly once), and the output length
is the sum of the partition sizes. -/
theorem merger_conservation (ps : List Partition) :
    (unionEntries ps : Multiset Entry) = partsMS ps ∧
    (unionEntries ps).length = (ps.map List.length).sum := by
  refine ⟨unionEntries_ms ps, ?_⟩
  have h := congrArg Multiset.card (unionEntries_ms ps)
  rw [Multiset.coe_card] at h
  rw [h, card_partsMS]

/-- C10: the merge loop terminates on every finite sequence of partitions:
the fuel measured as total remaining entries plus remaining partitions
suffices (the loop yields a result within that many iterations), and each
iteration either removes one entry or removes one empty partition, so the
measure strictly decreases. -/
theorem merger_terminates (ps : List Partition) :
    (∃ out, unionLoopF (measureP ps) ps = some out ∧ unionEntries ps = out) ∧
    (match unionStep ps with
      | StepRes.done => ps = []
      | StepRes.dropped ps' => measureP ps' < measureP ps
      | StepRes.taken _ ps' => measureP ps' < measureP ps) := by
  refine ⟨unionEntries_eq ps, ?_⟩
  cases hstep : unionStep ps with
  | done => exact (unionStep_done_iff ps).mp hstep
  | dropped ps' => exact (unionStep_dropped_facts hstep).2.1
  | taken e ps' => exact (unionStep_taken_facts hstep).2

/-- C1 counterexample: partitions P0 (index 0, entries keyed 5 and 9) and P1
(index 1, one entry keyed 5) share the minimum identifier 5, yet the merge
emits P1's key-5 entry before P0's: `min_element` compares whole multimaps
lexicographically and P1, a strict prefix of P0 under that comparison, wins
even though P0 has the lower index.  The two key-5 entries are distinct, so
the output order contradicts the claimed lowest-partition-index tie-break. -/
theorem merger_tiebreak_cex :
    unionEntries [[(5, ⟨5, EntryType.A⟩), (9, ⟨9, EntryType.A⟩)],
        [(5, ⟨5, EntryType.B⟩)]]
      = [⟨5, EntryType.B⟩, ⟨5, EntryType.A⟩, ⟨9, EntryType.A⟩] ∧
    (⟨5, EntryType.B⟩ : Entry) ≠ ⟨5, EntryType.A⟩ := by
  exact ⟨by decide, by decide⟩

/-- C1 (amended): for every sequence of key-sorted partitions whose entries
are keyed by their own identifiers, the merge output is non-decreasing by
Identifier; but among entries sharing an identifier the order follows the
lexicographic multimap comparison of the remaining partitions (the first
lexicographically-least partition is drained next), which does not always
put the lower-indexed partition's entry first. -/
theorem merger_nondecreasing (ps : List Partition)
    (hs : ∀ p ∈ ps, sortedPart p) (hid : ∀ p ∈ ps, keyIdOk p) :
    (unionEntries ps).Pairwise (fun a b : Entry => a.m_osmId ≤ b.m_osmId) :=
  unionEntries_pairwise ps hs hid

/-- C1 witness: the amended theorem applied to two concrete sorted
partitions. -/
theorem merger_nondecreasing_witness :
    (∀ p ∈ ([[(1, ⟨1, EntryType.A⟩), (3, ⟨3, EntryType.A⟩)],
        [(2, ⟨2, EntryType.B⟩)]] : List Partition), sortedPart p) ∧
    (unionEntries [[(1, ⟨1, EntryType.A⟩), (3, ⟨3, EntryType.A⟩)],
        [(2, ⟨2, EntryType.B⟩)]]).Pairwise
      (fun a b : Entry => a.m_osmId ≤ b.m_osmId) :=
  ⟨by decide, merger_nondecreasing _ (by decide) (by decide)⟩

theorem processLine_split (l : List Char) (s : ParsingStats) :
    processLine l s = (s + lineDelta l, lineRes l) := by
  cases s with
  | mk a b c =>
      unfold lineDelta lineRes processLine afterId
      by_cases hl : l = []
      · rw [if_pos hl, if_pos hl]
        simp [stats_add_def, stats_zero_def]
      · rw [if_neg hl, if_neg hl]
        cases hf : findSpace l with
        | none => simp [hf, stats_add_def, stats_zero_def]
        | some i =>
            cases ht : toInt64 (l.take i) with
            | none => simp [hf, ht, stats_add_def, stats_zero_def]
            | some n =>
                cases hd : deserializeFromJSON (l.drop (i + 1)) with
                | none => simp [hf, ht, hd, stats_add_def, stats_zero_def]
                | some t =>
                    by_cases hc : t = EntryType.Count
                    · simp [hf, ht, hd, hc, stats_add_def, stats_zero_def]
                    · simp [hf, ht, hd, hc, stats_add_def, stats_zero_def]

theorem lineRes_entry (l : List Char) (k : Nat) (e : Entry)
    (h : lineRes l = some (k, e)) :
    e.m_osmId = k ∧ e.m_type ≠ EntryType.Count := by
  unfold lineRes processLine afterId at h
  by_cases hl : l = []
  · rw [if_pos hl] at h; simp at h
  · rw [if_neg hl] at h
    cases hf : findSpace l with
    | none => rw [hf] at h; simp at h
    | some i =>
        rw [hf] at h
        dsimp only at h
        cases ht : toInt64 (l.take i) with
        | none => rw [ht] at h; simp at h
        | some n =>
            rw [ht] at h
            dsimp only at h
            cases hd : deserializeFromJSON (l.drop (i + 1)) with
            | none => rw [hd] at h; simp at h
            | some t =>
                rw [hd] at h
                dsimp only at h
                by_cases hc : t = EntryType.Count
                · rw [if_pos hc] at h; simp at h
                · rw [if_neg hc] at h
                  simp at h
                  obtain ⟨hk, he⟩ := h
                  subst hk
                  rw [← he]
                  exact ⟨rfl, hc⟩

theorem partMS_mmInsert : ∀ (p : Partition) (x : Nat × Entry),
    partMS (mmInsert p x) = x.2 ::ₘ partMS p := by
  intro p
  induction p with
  | nil => intro x; rfl
  | cons y ys ih =>
      intro x
      unfold mmInsert
      by_cases hle : y.1 ≤ x.1
      · rw [if_pos hle, partMS_cons, ih, partMS_cons, Multiset.cons_swap]
      · rw [if_neg hle, partMS_cons]

theorem mem_mmInsert {z : Nat × Entry} : ∀ {p : Partition} {x : Nat × Entry},
    z ∈ mmInsert p x → z = x ∨ z ∈ p := by
  intro p
  induction p with
  | nil =>
      intro x h
      simp [mmInsert] at h
      exact Or.inl h
  | cons y ys ih =>
      intro x h
      unfold mmInsert at h
      by_cases hle : y.1 ≤ x.1
      · rw [if_pos hle] at h
        rcases List.mem_cons.mp h with rfl | h'
        · exact Or.inr (List.mem_cons_self _ _)
        · rcases ih h' with h'' | h''
          · exact Or.inl h''
          · exact Or.inr (List.mem_cons_of_mem _ h'')
      · rw [if_neg hle] at h
        rcases List.mem_cons.mp h with rfl | h'
        · exact Or.inl rfl
        · exact Or.inr h'

theorem sortedPart_mmInsert : ∀ {p : Partition} (x : Nat × Entry),
    sortedPart p → sortedPart (mmInsert p x) := by
  intro p
  induction p with
  | nil =>
      intro x _
      exact List.pairwise_singleton _ _
  | cons y ys ih =>
      intro x h
      have hy := (List.pairwise_cons.mp h).1
      have hys := (List.pairwise_cons.mp h).2
      unfold mmInsert
      by_cases hle : y.1 ≤ x.1
      · rw [if_pos hle]
        refine List.pairwise_cons.mpr ⟨?_, ih x hys⟩
        intro z hz
        rcases mem_mmInsert hz with rfl | h'
        · exact hle
        · exact hy z h'
      · rw [if_neg hle]
        refine List.pairwise_cons.mpr ⟨?_, h⟩
        intro z hz
        rcases List.mem_cons.mp hz with rfl | h'
        · omega
        · have := hy z h'
          omega

theorem keyIdOk_mmInsert {p : Partition} {x : Nat × Entry}
    (h : keyIdOk p) (hx : x.2.m_osmId = x.1) : keyIdOk (mmInsert p x) := by
  intro z hz
  rcases mem_mmInsert hz with rfl | h'
  · exact hx
  · exact h z h'

theorem readEntryMap_cons (l : List Char) (ls : List (List Char))
    (s : ParsingStats) (acc : Partition) :
    readEntryMap (l :: ls) s acc =
      match lineRes l with
      | none => readEntryMap ls (s + lineDelta l) acc
      | some x => readEntryMap ls (s + lineDelta l) (mmInsert acc x) := by
  rw [show readEntryMap (l :: ls) s acc =
      (match processLine l s with
        | (stats', none) => readEntryMap ls stats' acc
        | (stats', some x) => readEntryMap ls stats' (mmInsert acc x)) from rfl]
  rw [processLine_split]
  cases lineRes l <;> rfl

theorem readEntryMap_stats : ∀ (ls : List (List Char)) (s : ParsingStats)
    (acc : Partition), (readEntryMap ls s acc).2 = s + (ls.map lineDelta).sum := by
  intro ls
  induction ls with
  | nil => intro s acc; simp [readEntryMap]
  | cons l ls ih =>
      intro s acc
      rw [readEntryMap_cons]
      cases hr : lineRes l with
      | none => rw [ih]; simp [add_assoc]
      | some x => rw [ih]; simp [add_assoc]

theorem readEntryMap_ms : ∀ (ls : List (List Char)) (s : ParsingStats)
    (acc : Partition),
    partMS (readEntryMap ls s acc).1 = partMS acc + (ls.map lineMS).sum := by
  intro ls
  induction ls with
  | nil => intro s acc; simp [readEntryMap]
  | cons l ls ih =>
      intro s acc
      rw [readEntryMap_cons]
      cases hr : lineRes l with
      | none =>
          rw [ih]
          have hms : lineMS l = 0 := by rw [lineMS, hr]
          simp [hms]
      | some x =>
          rw [ih, partMS_mmInsert]
          have hms : lineMS l = {x.2} := by rw [lineMS, hr]
          rw [List.map_cons, List.sum_cons, hms, ← Multiset.singleton_add]
          abel

theorem readEntryMap_inv : ∀ (ls : List (List Char)) (s : ParsingStats)
    (acc : Partition), sortedPart acc → keyIdOk acc →
    (∀ x ∈ acc, x.2.m_type ≠ EntryType.Count) →
    sortedPart (readEntryMap ls s acc).1 ∧ keyIdOk (readEntryMap ls s acc).1 ∧
    ∀ x ∈ (readEntryMap ls s acc).1, x.2.m_type ≠ EntryType.Count := by
  intro ls
  induction ls with
  | nil => intro s acc h1 h2 h3; exact ⟨h1, h2, h3⟩
  | cons l ls ih =>
      intro s acc h1 h2 h3
      rw [readEntryMap_cons]
      cases hr : lineRes l with
      | none => exact ih _ acc h1 h2 h3
      | some x =>
          obtain ⟨hxid, hxtype⟩ := lineRes_entry l x.1 x.2 (by rw [hr])
          refine ih _ (mmInsert acc x) (sortedPart_mmInsert x h1)
            (keyIdOk_mmInsert h2 hxid) ?_
          intro z hz
          rcases mem_mmInsert hz with rfl | h'
          · exact hxtype
          · exact h3 z h'

theorem workerLines_nil (sched : List Nat) (w : Nat) :
    workerLines [] sched w = [] := by
  simp [workerLines]

theorem workerLines_cons (l : List Char) (ls : List (List Char)) (t : Nat)
    (ts : List Nat) (w : Nat) :
    workerLines (l :: ls) (t :: ts) w =
      if t = w then l :: workerLines ls ts w else workerLines ls ts w := by
  by_cases h : t = w <;> simp [workerLines, h]

theorem sum_range_if {M : Type} [AddCommMonoid M] (g : Nat → M) (x : M)
    (t : Nat) : ∀ k : Nat, t < k →
      ((List.range k).map (fun w => if t = w then x + g w else g w)).sum
        = x + ((List.range k).map g).sum := by
  intro k
  induction k with
  | zero => intro h; exact absurd h (Nat.not_lt_zero t)
  | succ m ih =>
      intro h
      rw [List.range_succ, List.map_append, List.map_append, List.sum_append,
        List.sum_append]
      by_cases hm : t < m
      · rw [ih hm]
        have hne : t ≠ m := by omega
        simp only [List.map_cons, List.map_nil, if_neg hne, List.sum_cons,
          List.sum_nil]
        rw [add_assoc]
      · have ht : t = m := by omega
        subst ht
        have hmap : (List.range t).map (fun w => if t = w then x + g w else g w)
            = (List.range t).map g := by
          apply map_congr_mem
          intro a ha
          have ha' : a < t := List.mem_range.mp ha
          have hne : t ≠ a := by omega
          simp [if_neg hne]
        rw [hmap, List.map_cons, List.map_nil, List.sum_cons, List.sum_nil,
          if_pos (rfl : t = t), add_zero]
        have hsg : (List.map g [t]).sum = g t := by simp
        rw [hsg, add_left_comm]

theorem sum_workers {M : Type} [AddCommMonoid M] (f : List Char → M) :
    ∀ (lines : List (List Char)) (sched : List Nat) (k : Nat),
      sched.length = lines.length → (∀ t ∈ sched, t < k) →
      ((List.range k).map
        (fun w => ((workerLines lines sched w).map f).sum)).sum
        = (lines.map f).sum := by
  intro lines
  induction lines with
  | nil =>
      intro sched k _ _
      simp only [workerLines_nil, List.map_nil, List.sum_nil]
      rw [sum_map_zero]
  | cons l ls ih =>
      intro sched k hlen hval
      cases sched with
      | nil => simp at hlen
      | cons t ts =>
          have ht : t < k := hval t (List.mem_cons_self _ _)
          have hts : ∀ u ∈ ts, u < k := fun u hu =>
            hval u (List.mem_cons_of_mem _ hu)
          have hlen' : ts.length = ls.length := by simpa using hlen
          have hmap : (List.range k).map
              (fun w => ((workerLines (l :: ls) (t :: ts) w).map f).sum)
              = (List.range k).map
                (fun w => if t = w then f l + ((workerLines ls ts w).map f).sum
                  else ((workerLines ls ts w).map f).sum) := by
            apply map_congr_mem
            intro w _
            rw [workerLines_cons]
            by_cases h : t = w
            · simp [if_pos h]
            · simp [if_neg h]
          rw [hmap, sum_range_if _ _ _ k ht, ih ts k hlen' hts]
          simp

theorem readEntries_def (lines : List (List Char)) (rc : Nat)
    (sched : List Nat) :
    readEntries lines rc sched
      = (unionEntries ((List.range (spawnedWorkers rc)).map
          (fun w => (readEntryMap (workerLines lines sched w) 0 []).1)),
        ((List.range (spawnedWorkers rc)).map
          (fun w => (readEntryMap (workerLines lines sched w) 0 []).2)).sum) := by
  simp only [readEntries]
  rw [List.map_map, List.map_map]
  rfl

theorem readEntries_stats_eq (lines : List (List Char)) (rc : Nat)
    (sched : List Nat) (hv : ValidSched sched (spawnedWorkers rc) lines.length) :
    (readEntries lines rc sched).2 = (lines.map lineDelta).sum := by
  rw [readEntries_def]
  dsimp only
  have hmap : (List.range (spawnedWorkers rc)).map
      (fun w => (readEntryMap (workerLines lines sched w) 0 []).2)
      = (List.range (spawnedWorkers rc)).map
        (fun w => ((workerLines lines sched w).map lineDelta).sum) := by
    apply map_congr_mem
    intro w _
    rw [readEntryMap_stats, zero_add]
  rw [hmap, sum_workers lineDelta lines sched _ hv.1 hv.2]

theorem readEntries_ms_eq (lines : List (List Char)) (rc : Nat)
    (sched : List Nat) (hv : ValidSched sched (spawnedWorkers rc) lines.length) :
    ((readEntries lines rc sched).1 : Multiset Entry) = parsedMS lines := by
  rw [readEntries_def]
  dsimp only
  rw [unionEntries_ms]
  unfold partsMS
  rw [List.map_map]
  have hmap : (List.range (spawnedWorkers rc)).map
      (partMS ∘ fun w => (readEntryMap (workerLines lines sched w) 0 []).1)
      = (List.range (spawnedWorkers rc)).map
        (fun w => ((workerLines lines sched w).map lineMS).sum) := by
    apply map_congr_mem
    intro w _
    show partMS (readEntryMap (workerLines lines sched w) 0 []).1 = _
    rw [readEntryMap_ms]
    exact zero_add _
  rw [hmap, sum_workers lineMS lines sched _ hv.1 hv.2]
  rfl

theorem readEntries_pairwise_always (lines : List (List Char)) (rc : Nat)
    (sched : List Nat) :
    (readEntries lines rc sched).1.Pairwise
      (fun a b : Entry => a.m_osmId ≤ b.m_osmId) := by
  rw [readEntries_def]
  dsimp only
  apply unionEntries_pairwise
  · intro p hp
    obtain ⟨w, _, rfl⟩ := List.mem_map.mp hp
    exact (readEntryMap_inv _ 0 [] List.Pairwise.nil
      (fun x hx => absurd hx (List.not_mem_nil x))
      (fun x hx => absurd hx (List.not_mem_nil x))).1
  · intro p hp
    obtain ⟨w, _, rfl⟩ := List.mem_map.mp hp
    exact (readEntryMap_inv _ 0 [] List.Pairwise.nil
      (fun x hx => absurd hx (List.not_mem_nil x))
      (fun x hx => absurd hx (List.not_mem_nil x))).2.1

theorem readEntries_no_sentinel (lines : List (List Char)) (rc : Nat)
    (sched : List Nat) :
    ∀ e ∈ (readEntries lines rc sched).1, e.m_type ≠ EntryType.Count := by
  intro e he
  rw [readEntries_def] at he
  dsimp only at he
  have hms : e ∈ partsMS ((List.range (spawnedWorkers rc)).map
      (fun w => (readEntryMap (workerLines lines sched w) 0 []).1)) := by
    rw [← unionEntries_ms]
    exact Multiset.mem_coe.mpr he
  obtain ⟨p, hp, x, hx, rfl⟩ := mem_partsMS.mp hms
  obtain ⟨w, _, rfl⟩ := List.mem_map.mp hp
  exact (readEntryMap_inv _ 0 [] List.Pairwise.nil
    (fun z hz => absurd hz (List.not_mem_nil z))
    (fun z hz => absurd hz (List.not_mem_nil z))).2.2 x hx

theorem parsedMS_coe : ∀ lines : List (List Char),
    parsedMS lines = ((parsedEntries lines : List Entry) : Multiset Entry) := by
  intro lines
  induction lines with
  | nil => rfl
  | cons l ls ih =>
      unfold parsedMS parsedEntries
      rw [List.map_cons, List.sum_cons, List.filterMap_cons]
      cases hr : lineRes l with
      | none =>
          have hms : lineMS l = 0 := by rw [lineMS, hr]
          rw [hms, zero_add]
          simpa [parsedMS, parsedEntries] using ih
      | some x =>
          have hms : lineMS l = {x.2} := by rw [lineMS, hr]
          rw [hms]
          have hih : (ls.map lineMS).sum
              = ((parsedEntries ls : List Entry) : Multiset Entry) := ih
          rw [hih]
          simp only [Option.map_some']
          rw [Multiset.singleton_add, ← Multiset.cons_coe]
          rfl

/-- C5 counterexample: two input lines share the identifier 5 with different
payloads.  With one worker (the only valid schedule) the run emits the A
entry first; with two workers under the valid schedule that hands line 0 to
worker 1 and line 1 to worker 0, the run emits the B entry first.  Both
worker counts are in the claimed range, so the final sequence is not
independent of the parallelism degree and schedule. -/
theorem readEntries_schedule_cex :
    ValidSched [0, 0] (spawnedWorkers 1) 2 ∧
    ValidSched [1, 0] (spawnedWorkers 2) 2 ∧
    (readEntries ["5 \x7b\"type\":\"A\"\x7d".toList,
        "5 \x7b\"type\":\"B\"\x7d".toList] 1 [0, 0]).1
      = [⟨5, EntryType.A⟩, ⟨5, EntryType.B⟩] ∧
    (readEntries ["5 \x7b\"type\":\"A\"\x7d".toList,
        "5 \x7b\"type\":\"B\"\x7d".toList] 2 [1, 0]).1
      = [⟨5, EntryType.B⟩, ⟨5, EntryType.A⟩] ∧
    (readEntries ["5 \x7b\"type\":\"A\"\x7d".toList,
        "5 \x7b\"type\":\"B\"\x7d".toList] 1 [0, 0]).1
      ≠ (readEntries ["5 \x7b\"type\":\"A\"\x7d".toList,
        "5 \x7b\"type\":\"B\"\x7d".toList] 2 [1, 0]).1 := by
  exact ⟨by decide, by decide, by decide, by decide, by decide⟩

/-- C5 (amended): for every input whose successfully parsed entries carry
pairwise distinct identifiers, any two runs with valid schedules produce the
identical final entry sequence and identical final stats, independently of
the worker counts; the stats are schedule-independent even without the
distinctness assumption (they equal the per-line sum).  With duplicate
identifiers the relative order of equal-identifier entries may depend on the
schedule, as the counterexample shows. -/
theorem readEntries_deterministic (lines : List (List Char)) (rc₁ rc₂ : Nat)
    (s₁ s₂ : List Nat)
    (hv₁ : ValidSched s₁ (spawnedWorkers rc₁) lines.length)
    (hv₂ : ValidSched s₂ (spawnedWorkers rc₂) lines.length)
    (hids : ((parsedEntries lines).map Entry.m_osmId).Nodup) :
    readEntries lines rc₁ s₁ = readEntries lines rc₂ s₂ := by
  have hms₁ := readEntries_ms_eq lines rc₁ s₁ hv₁
  have hms₂ := readEntries_ms_eq lines rc₂ s₂ hv₂
  have hstats₁ := readEntries_stats_eq lines rc₁ s₁ hv₁
  have hstats₂ := readEntries_stats_eq lines rc₂ s₂ hv₂
  have hpw₁ := readEntries_pairwise_always lines rc₁ s₁
  have hpw₂ := readEntries_pairwise_always lines rc₂ s₂
  have hperm₁ : (readEntries lines rc₁ s₁).1.Perm (parsedEntries lines) := by
    rw [← Multiset.coe_eq_coe, hms₁, parsedMS_coe]
  have hperm₂ : (readEntries lines rc₂ s₂).1.Perm (parsedEntries lines) := by
    rw [← Multiset.coe_eq_coe, hms₂, parsedMS_coe]
  have hperm : (readEntries lines rc₁ s₁).1.Perm (readEntries lines rc₂ s₂).1 :=
    hperm₁.trans hperm₂.symm
  have hnd₁ : ((readEntries lines rc₁ s₁).1.map Entry.m_osmId).Nodup :=
    ((hperm₁.map Entry.m_osmId).symm).nodup hids
  have hnd₂ : ((readEntries lines rc₂ s₂).1.map Entry.m_osmId).Nodup :=
    ((hperm₂.map Entry.m_osmId).symm).nodup hids
  have hne₁ : (readEntries lines rc₁ s₁).1.Pairwise
      (fun a b : Entry => a.m_osmId ≠ b.m_osmId) := List.pairwise_map.mp hnd₁
  have hne₂ : (readEntries lines rc₂ s₂).1.Pairwise
      (fun a b : Entry => a.m_osmId ≠ b.m_osmId) := List.pairwise_map.mp hnd₂
  have hlt₁ : (readEntries lines rc₁ s₁).1.Pairwise
      (fun a b : Entry => a.m_osmId < b.m_osmId) :=
    (hpw₁.and hne₁).imp (fun h => by omega)
  have hlt₂ : (readEntries lines rc₂ s₂).1.Pairwise
      (fun a b : Entry => a.m_osmId < b.m_osmId) :=
    (hpw₂.and hne₂).imp (fun h => by omega)
  haveI : IsAntisymm Entry (fun a b : Entry => a.m_osmId < b.m_osmId) :=
    ⟨fun a b h1 h2 => absurd h2 (by omega)⟩
  have heq : (readEntries lines rc₁ s₁).1 = (readEntries lines rc₂ s₂).1 :=
    List.eq_of_perm_of_sorted hperm hlt₁ hlt₂
  have hst : (readEntries lines rc₁ s₁).2 = (readEntries lines rc₂ s₂).2 :=
    hstats₁.trans hstats₂.symm
  exact Prod.ext heq hst

/-- C5 witness: two distinct-identifier lines, one worker against two
workers under different valid schedules, with identical results. -/
theorem readEntries_deterministic_witness :
    ValidSched [0, 0] (spawnedWorkers 1) 2 ∧
    ValidSched [0, 1] (spawnedWorkers 2) 2 ∧
    ((parsedEntries ["100 \x7b\"type\":\"A\"\x7d".toList,
        "50 \x7b\"type\":\"B\"\x7d".toList]).map Entry.m_osmId).Nodup ∧
    readEntries ["100 \x7b\"type\":\"A\"\x7d".toList,
        "50 \x7b\"type\":\"B\"\x7d".toList] 1 [0, 0]
      = readEntries ["100 \x7b\"type\":\"A\"\x7d".toList,
        "50 \x7b\"type\":\"B\"\x7d".toList] 2 [0, 1] :=
  ⟨by decide, by decide, by decide,
    readEntries_deterministic ["100 \x7b\"type\":\"A\"\x7d".toList,
      "50 \x7b\"type\":\"B\"\x7d".toList] 1 2 [0, 0] [0, 1]
      (by decide) (by decide) (by decide)⟩

/-- C8: a line whose identifier decodes but whose payload decodes to the
sentinel discriminant contributes no entry and changes no counter (it is
neither loaded nor an error), and no entry with the sentinel discriminant
ever appears in the final output of any run. -/
theorem sentinel_skipped (stats : ParsingStats) :
    (∀ tok rest : List Char, ∀ n : Int, ' ' ∉ tok → toInt64 tok = some n →
      deserializeFromJSON rest = some EntryType.Count →
      processLine (tok ++ ' ' :: rest) stats = (stats, none)) ∧
    (∀ (lines : List (List Char)) (rc : Nat) (sched : List Nat),
      ∀ e ∈ (readEntries lines rc sched).1, e.m_type ≠ EntryType.Count) := by
  constructor
  · intro tok rest n hsp hn hd
    rw [processLine_goodTok tok rest n hsp hn stats]
    simp [afterId, hd]
  · intro lines rc sched e he
    exact readEntries_no_sentinel lines rc sched e he

/-- C8 witness: the concrete sentinel line at zeroed statistics. -/
theorem sentinel_skipped_witness :
    processLine ("7".toList ++ ' ' :: "\x7b\"type\":\"Count\"\x7d".toList) 0
      = (0, none) :=
  (sentinel_skipped 0).1 "7".toList "\x7b\"type\":\"Count\"\x7d".toList 7
    (by decide) (by decide) (by decide)

/-- C9: on the four-line example the run returns the entries keyed 50 and
100 in ascending identifier order with exactly two loaded entries and one
bad identifier; the blank line is skipped and touches no counter (an empty
line leaves the statistics unchanged and produces nothing). -/
theorem example_run :
    readEntries ["100 \x7b\"type\":\"A\"\x7d".toList,
        "50 \x7b\"type\":\"B\"\x7d".toList, "garbage".toList, "".toList]
        1 [0, 0, 0, 0]
      = ([⟨50, EntryType.B⟩, ⟨100, EntryType.A⟩], ⟨2, 1, 0⟩) ∧
    ∀ s : ParsingStats, processLine [] s = (s, none) := by
  constructor
  · decide
  · intro s
    rfl

end HierarchyReader
